import Mathlib

/-!
# Verification of the tibanna-scheduler batch helpers

Shallow embedding of `src/py/helpers.py` (batch selection, input grouping,
failure-ledger membership, postrun auditing) together with proofs of the
specification's claims about those functions.

External collaborators (the S3 storage gateway and the filetype resolver
imported from `filetypes`) are modelled as explicit parameters: an S3
listing becomes a list of keys (or key/content pairs) and `get_filetype`'s
result becomes the pair of arguments `ftype`, `idx_ext`.  Files read or
written by the Python code (`failed.txt`, `failed_runs.txt`, the manifest
csv) are passed as explicit contents: a `String` for a flat file and a
`List Row` for the parsed manifest.
-/

namespace Tibanna

/-- The whitespace characters stripped by Python's `str.strip()`
(restricted to the ASCII whitespace class; the inputs handled by the code
are ASCII). -/
def pyIsSpace (c : Char) : Bool :=
  c = ' ' || c = '\t' || c = '\n' || c = '\r' || c = '\x0b' || c = '\x0c'

/-- Python `str.strip()` on the character list of a string: drop whitespace
from the right, then from the left. -/
def pyStripL (l : List Char) : List Char :=
  ((l.reverse.dropWhile pyIsSpace).reverse).dropWhile pyIsSpace

/-- Python `str.strip()`. -/
def pyStrip (s : String) : String := ⟨pyStripL s.data⟩

/-- The lines of a text file as Python file iteration yields them:
maximal segments ending in `'\n'` (the terminator kept), plus a final
unterminated segment when the content does not end in a newline.  An empty
trailing segment is not a line. -/
def linesKeep : List Char → List (List Char)
  | [] => []
  | c :: rest =>
    if c = '\n' then ['\n'] :: linesKeep rest
    else
      match linesKeep rest with
      | [] => [[c]]
      | l :: ls => (c :: l) :: ls

/-- The full lines of a text file without their terminators: maximal
`'\n'`-free segments, an empty trailing segment not counting as a line.
This is the spec's notion of "a full line of the ledger file". -/
def linesNoEnd : List Char → List (List Char)
  | [] => []
  | c :: rest =>
    if c = '\n' then [] :: linesNoEnd rest
    else
      match linesNoEnd rest with
      | [] => [[c]]
      | l :: ls => (c :: l) :: ls

/-- The lines of a file's content, as Python's `for line in file` yields
them (terminators kept). -/
def pyLines (s : String) : List String :=
  (linesKeep s.data).map (fun l => ⟨l⟩)

/-- Spec-side: the full lines of a file's content, without terminators. -/
def fullLines (s : String) : List String :=
  (linesNoEnd s.data).map (fun l => ⟨l⟩)

/-- `file_in_failed` from `helpers.py`: scan the content of `failed.txt`
line by line and report whether some line, stripped, equals the subject.
The file's content is the explicit argument `failed_txt`. -/
def file_in_failed (failed_txt : String) (subject : String) : Bool :=
  (pyLines failed_txt).any (fun line => pyStrip line == subject)

/-- One parsed manifest row, as produced by `csv.DictReader` on a manifest
with columns `location` and `Subject`. -/
structure Row where
  location : String
  Subject : String
deriving Repr, DecidableEq

/-- `os.path.basename`, and also Python's `s.split("/")[-1]`, on the
character list: the segment after the last `'/'`. -/
def afterLastSlash (l : List Char) : List Char :=
  (l.reverse.takeWhile (fun c => c ≠ '/')).reverse

/-- Python's `%` on integers (sign follows the divisor): `Int.fmod`. -/
def pymod (a b : Int) : Int := Int.fmod a b

/-- Python's slice `xs[:stop]` with an integer `stop`: a negative `stop`
counts from the end; out-of-range bounds clamp. -/
def pysliceTo {α : Type} (xs : List α) (stop : Int) : List α :=
  if stop < 0 then xs.take ((xs.length : Int) + stop).toNat
  else xs.take stop.toNat

/-- The row loop of `resolve_inputs`: iterate manifest rows in order,
skip a row whose subject is in the completed set, skip it when
`exclude_failed` and the subject is in `failed.txt`, otherwise append its
location; after each row, break as soon as the accumulated length equals
`batch_size`. -/
def resolveLoop (cset : List String) (failed_txt : String) (exclude_failed : Bool)
    (batch_size : Int) : List Row → List String → List String
  | [], acc => acc
  | r :: rest, acc =>
    let acc' :=
      if cset.contains r.Subject then acc
      else if exclude_failed && file_in_failed failed_txt r.Subject then acc
      else acc ++ [r.location]
    if (acc'.length : Int) = batch_size then acc'
    else resolveLoop cset failed_txt exclude_failed batch_size rest acc'

/-- `resolve_inputs` from `helpers.py`.  The parsed manifest rows are
`manifest`; `completedSet` is the result of `get_subject_completed_set`
(a pure function of an external S3 listing, so passed in); `failed_txt`
is the content of `failed.txt`.  After the row loop the result is cut to
`locations[:len(locations) - (len(locations) % cores_per_inst)]`; with
`cores_per_inst = 0` Python raises `ZeroDivisionError`, modelled as
`Except.error`. -/
def resolve_inputs (manifest : List Row) (batch_size : Int)
    (completedSet : List String) (cores_per_inst : Int)
    (allow_existing : Bool) (exclude_failed : Bool) (failed_txt : String) :
    Except String (List String × List String) :=
  let cset := if allow_existing then [] else completedSet
  let locations := resolveLoop cset failed_txt exclude_failed batch_size manifest []
  if cores_per_inst = 0 then
    Except.error "ZeroDivisionError: integer division or modulo by zero"
  else
    let locations2 :=
      pysliceTo locations ((locations.length : Int) - pymod (locations.length : Int) cores_per_inst)
    Except.ok (locations2, locations2.map (fun loc => (⟨afterLastSlash loc.data⟩ : String)))

/-- Fuel-driven worker for `chunkExact`: structural recursion on the fuel
so that the definition reduces definitionally; the fuel is always
instantiated with the list's length, which bounds the recursion depth. -/
def chunkFuel {α : Type} (k : Nat) : Nat → List α → List (List α)
  | 0, _ => []
  | _, [] => []
  | fuel + 1, x :: rest => (x :: rest.take (k - 1)) :: chunkFuel k fuel (rest.drop (k - 1))

/-- Consecutive slices `xs[i:i+k]` for `i = 0, k, 2k, ...` (the positive-step
case of the list comprehension in `group_inputs`; the last slice may be
shorter).  Stated for every `Nat` step, only reached from `pyChunks` with a
positive one. -/
def chunkExact {α : Type} (k : Nat) (xs : List α) : List (List α) :=
  chunkFuel k xs.length xs

theorem chunkFuel_of_le {α : Type} (k : Nat) (f : Nat) (xs : List α)
    (h : xs.length ≤ f) : chunkFuel k f xs = chunkFuel k xs.length xs := by
  revert h
  induction f using Nat.strong_induction_on generalizing xs with
  | _ f ih =>
    intro h
    cases xs with
    | nil => cases f <;> rfl
    | cons x rest =>
      cases f with
      | zero => simp at h
      | succ f' =>
        simp only [chunkFuel, List.length_cons]
        have h1 : rest.length ≤ f' := by
          simp only [List.length_cons] at h
          omega
        have hd : (rest.drop (k - 1)).length ≤ f' := by
          simp only [List.length_drop]
          omega
        have hd2 : (rest.drop (k - 1)).length ≤ rest.length := by
          simp only [List.length_drop]
          omega
        rw [ih f' (Nat.lt_succ_self f') _ hd,
            ih rest.length (Nat.lt_succ_of_le h1) _ hd2]

/-- The recursive unfolding of `chunkExact` on a nonempty list. -/
theorem chunkExact_cons {α : Type} (k : Nat) (x : α) (rest : List α) :
    chunkExact k (x :: rest)
      = (x :: rest.take (k - 1)) :: chunkExact k (rest.drop (k - 1)) := by
  unfold chunkExact
  simp only [List.length_cons, chunkFuel]
  congr 1
  exact chunkFuel_of_le k rest.length (rest.drop (k - 1))
    (by simp only [List.length_drop]; omega)

/-- `[xs[i:i+k] for i in range(0, len(xs), k)]`: for a negative step the
range is empty (the start 0 never exceeds the stop `len(xs) ≥ 0` going
down), so no slice is produced; a zero step raises and is guarded at the
call site in `group_inputs`. -/
def pyChunks {α : Type} (xs : List α) (k : Int) : List (List α) :=
  if k < 0 then [] else chunkExact k.toNat xs

/-- `prepend_path` from `helpers.py`, instantiated at its call sites'
nesting depth (a list of lists of strings): prepend `path` to every
string. -/
def prepend_path (nested_list : List (List String)) (path : String) :
    List (List String) :=
  nested_list.map (fun l => l.map (fun s => path ++ s))

/-- `os.path.splitext(...)[0]` on the character list of a basename: cut at
the last `'.'` unless every character before it is a dot (so a leading-dot
name like `.bashrc` keeps its dot). -/
def splitextRoot (l : List Char) : List Char :=
  let ext := l.reverse.takeWhile (fun c => c ≠ '.')
  if ext.length = l.length then l
  else
    let root := l.take (l.length - ext.length - 1)
    if root.all (fun c => c = '.') then l else root

/-- `basename` from `helpers.py` (strip directory components, then the
extension), instantiated at its call site's nesting depth. -/
def basename (nested_list : List (List String)) : List (List String) :=
  nested_list.map (fun l => l.map (fun s => ⟨splitextRoot (afterLastSlash s.data)⟩))

/-- Python truthiness of the filetype resolver's optional index extension:
`if idx_ext:` is false for an absent and for an empty extension. -/
def pyTruthy : Option String → Bool
  | none => false
  | some s => !(s == "")

/-- The triple returned by `group_inputs`. -/
structure GroupResult where
  subjects : List (List String)
  grouped_input_paths : List (List String)
  grouped_idx_paths : Option (List (List String))
deriving Repr, DecidableEq

/-- `group_inputs` from `helpers.py`.  The external filetype resolver's
result `get_filetype(filenames)` is passed in as `ftype` and `idx_ext`.
`items_per_list = 0` makes `range` raise `ValueError`, modelled as
`Except.error`. -/
def group_inputs (filenames : List String) (items_per_list : Int)
    (ftype : String) (idx_ext : Option String) : Except String GroupResult :=
  if items_per_list = 0 then
    Except.error "ValueError: range arg 3 must not be zero"
  else
    let grouped_inputs := pyChunks filenames items_per_list
    let grouped_input_paths := prepend_path grouped_inputs (ftype ++ "s/")
    let subjects := basename grouped_inputs
    let grouped_idx_paths :=
      if pyTruthy idx_ext then
        let ext := idx_ext.getD ""
        let idx_filenames := filenames.map (fun file => file ++ "." ++ ext)
        let grouped_idx := pyChunks idx_filenames items_per_list
        some (prepend_path grouped_idx (ftype ++ "sidx/"))
      else none
    Except.ok ⟨subjects, grouped_input_paths, grouped_idx_paths⟩

/-- Spec-side: strip a known prepended path from the front of a string by
dropping its length. -/
def dropPre (pre s : String) : String := ⟨s.data.drop pre.data.length⟩

/-- Python `key.endswith(suf)`. -/
def pyEndsWith (s suf : String) : Bool := suf.data.isSuffixOf s.data

/-- Python substring containment `pat in s` on character lists. -/
def containsSub (pat : List Char) : List Char → Bool
  | [] => pat.isEmpty
  | c :: rest => pat.isPrefixOf (c :: rest) || containsSub pat rest

/-- Python `pat in s` on strings. -/
def pyInStr (pat s : String) : Bool := containsSub pat.data s.data

/-- The characters before the first occurrence of the (nonempty)
separator `sep`; the whole list when `sep` does not occur. -/
def splitHeadAux (sep : List Char) : List Char → List Char
  | [] => []
  | c :: rest => if sep.isPrefixOf (c :: rest) then [] else c :: splitHeadAux sep rest

/-- Python `s.split(sep)[0]`: the part before the first occurrence of the
(nonempty) separator. -/
def py_split_head (s sep : String) : String := ⟨splitHeadAux sep.data s.data⟩

/-- Spec-side: the key with a suffix stripped (drop the suffix's length
from the right). -/
def suffixStripped (s suf : String) : String :=
  ⟨s.data.take (s.data.length - suf.data.length)⟩

/-- The success marker `'"md5sum":"'` looked up in a postrun descriptor. -/
def md5Marker : String := "\"md5sum\":\""

/-- The failed-job-id set collected by `process_postrun_files`: the S3
listing under the job prefix is passed in as key/content pairs (the
content standing for the fetched, decoded object body); every key ending
in `.postrun.json` whose content lacks the md5sum marker contributes
`key.split('.postrun.json')[0]`.  Python's set is modelled as a deduplicated
list (membership-faithful; a Python set's iteration order is unspecified). -/
def failedJobIds (listing : List (String × String)) : List String :=
  (listing.filterMap (fun kc =>
    if pyEndsWith kc.1 ".postrun.json" then
      if pyInStr md5Marker kc.2 then none
      else some (py_split_head kc.1 ".postrun.json")
    else none)).dedup

/-- The two flat ledger files the helpers touch, by content:
`failed.txt` (read by `file_in_failed`) and `failed_runs.txt` (written by
`process_postrun_files`). -/
structure LedgerState where
  failed_txt : String
  failed_runs_txt : String
deriving Repr, DecidableEq

/-- The dedup rewrite at the end of `process_postrun_files`: read all
lines (terminators kept), put them in a set, write the set back.  The set
is modelled as first-occurrence dedup; Python's set iteration order is
unspecified, and no claim depends on the order. -/
def dedupLines (s : String) : String := String.join (pyLines s).dedup

/-- The ledger side effects of `process_postrun_files`: append each failed
job id plus a newline to `failed_runs.txt`, then dedup that file's lines
in place.  `failed.txt` is not touched. -/
def processPostrunLedger (listing : List (String × String))
    (st : LedgerState) : LedgerState :=
  let ids := failedJobIds listing
  let appended := st.failed_runs_txt ++ String.join (ids.map (fun i => i ++ "\n"))
  { st with failed_runs_txt := dedupLines appended }

/-! ## Lemmas about stripping and line splitting -/

theorem pyStripL_snoc_newline (l : List Char) :
    pyStripL (l ++ ['\n']) = pyStripL l := by
  simp [pyStripL, List.dropWhile, pyIsSpace]

theorem pyStrip_append_newline (s : String) :
    pyStrip (s ++ "\n") = pyStrip s := by
  unfold pyStrip
  rw [String.data_append]
  exact congrArg String.mk (pyStripL_snoc_newline s.data)

/-- Pointwise relation between the kept-terminator lines and the full
lines of the same content: equal up to a trailing newline. -/
theorem linesRel (l : List Char) :
    List.Forall₂ (fun k n => k = n ++ ['\n'] ∨ k = n) (linesKeep l) (linesNoEnd l) := by
  induction l with
  | nil => exact List.Forall₂.nil
  | cons c rest ih =>
    by_cases hc : c = '\n'
    · subst hc
      simp only [linesKeep, linesNoEnd, if_pos rfl]
      exact List.Forall₂.cons (Or.inl rfl) ih
    · simp only [linesKeep, linesNoEnd, if_neg hc]
      cases hk : linesKeep rest with
      | nil =>
        cases hn : linesNoEnd rest with
        | nil => exact List.Forall₂.cons (Or.inr rfl) List.Forall₂.nil
        | cons n ns => rw [hk, hn] at ih; cases ih
      | cons k ks =>
        cases hn : linesNoEnd rest with
        | nil => rw [hk, hn] at ih; cases ih
        | cons n ns =>
          rw [hk, hn] at ih
          cases ih with
          | cons hR hRest =>
            refine List.Forall₂.cons ?_ hRest
            rcases hR with h | h
            · exact Or.inl (by rw [h]; rfl)
            · exact Or.inr (by rw [h])

theorem forall2_map_strip {L1 L2 : List (List Char)}
    (h : List.Forall₂ (fun k n => k = n ++ ['\n'] ∨ k = n) L1 L2) :
    L1.map pyStripL = L2.map pyStripL := by
  induction h with
  | nil => rfl
  | cons hR _ ih =>
    rcases hR with h | h
    · simp only [List.map_cons, h, pyStripL_snoc_newline, ih]
    · simp only [List.map_cons, h, ih]

theorem linesKeep_map_strip (l : List Char) :
    (linesKeep l).map pyStripL = (linesNoEnd l).map pyStripL :=
  forall2_map_strip (linesRel l)

theorem pyLines_map_strip (s : String) :
    (pyLines s).map pyStrip = (fullLines s).map pyStrip := by
  unfold pyLines fullLines
  have h1 : ∀ (L : List (List Char)),
      (L.map (fun l => (⟨l⟩ : String))).map pyStrip = (L.map pyStripL).map String.mk := by
    intro L
    rw [List.map_map, List.map_map]
    rfl
  rw [h1, h1, linesKeep_map_strip]

theorem mem_map_pyStrip {L : List String} {t : String} :
    t ∈ L.map pyStrip ↔ ∃ l ∈ L, pyStrip l = t := by
  simp [List.mem_map]

/-- C6 (counterexample): with ledger content `" abc\n"` and subject
`"abc"`, `file_in_failed` returns true although `"abc"` does not occur as
a full line of the file (the only full line is `" abc"`): `line.strip()`
also removes leading and trailing whitespace, not just the terminator. -/
theorem file_in_failed_exact_line_cex :
    file_in_failed " abc\n" "abc" = true ∧ "abc" ∉ fullLines " abc\n" := by
  exact ⟨rfl, by decide⟩

/-- C6 (amended): `file_in_failed` returns true iff some line of the
ledger file, after stripping leading and trailing whitespace (which
includes the line terminator), equals the subject exactly. -/
theorem file_in_failed_iff_stripped_line (ledger subject : String) :
    file_in_failed ledger subject = true ↔
      ∃ line ∈ fullLines ledger, pyStrip line = subject := by
  unfold file_in_failed
  rw [List.any_eq_true]
  have hmap := pyLines_map_strip ledger
  constructor
  · rintro ⟨line, hmem, heq⟩
    have heq' : pyStrip line = subject := by
      exact beq_iff_eq.mp heq
    have : subject ∈ (pyLines ledger).map pyStrip :=
      heq' ▸ List.mem_map_of_mem pyStrip hmem
    rw [hmap] at this
    exact mem_map_pyStrip.mp this
  · rintro ⟨line, hmem, heq⟩
    have : subject ∈ (fullLines ledger).map pyStrip :=
      heq ▸ List.mem_map_of_mem pyStrip hmem
    rw [← hmap] at this
    obtain ⟨l, hl, hls⟩ := mem_map_pyStrip.mp this
    exact ⟨l, hl, beq_iff_eq.mpr hls⟩

/-! ## Lemmas about the batch selector -/

theorem pymod_coe (n m : Nat) :
    pymod (n : Int) (m : Int) = ((n % m : Nat) : Int) := by
  unfold pymod
  rw [Int.fmod_eq_emod _ (Int.natCast_nonneg m)]
  exact (Int.natCast_mod n m).symm

theorem pysliceTo_length_le {α : Type} (xs : List α) (stop : Int) :
    (pysliceTo xs stop).length ≤ xs.length := by
  unfold pysliceTo
  split <;> (rw [List.length_take]; exact Nat.min_le_right _ _)

theorem pysliceTo_subset {α : Type} (xs : List α) (stop : Int) :
    ∀ x ∈ pysliceTo xs stop, x ∈ xs := by
  unfold pysliceTo
  split <;> exact fun x hx => List.take_subset _ _ hx

theorem resolveLoop_length_le (cs : List String) (lg : String) (ef : Bool) (bs : Int) :
    ∀ (rows : List Row) (acc : List String), (acc.length : Int) < bs →
      ((resolveLoop cs lg ef bs rows acc).length : Int) ≤ bs := by
  intro rows
  induction rows with
  | nil => intro acc h; exact le_of_lt h
  | cons r rest ih =>
    intro acc h
    simp only [resolveLoop]
    set acc' := if cs.contains r.Subject then acc
      else if ef && file_in_failed lg r.Subject then acc
      else acc ++ [r.location] with hacc'
    have hlen : acc'.length ≤ acc.length + 1 := by
      rw [hacc']; split_ifs <;> simp
    by_cases hb : (acc'.length : Int) = bs
    · rw [if_pos hb]; exact le_of_eq hb
    · rw [if_neg hb]
      apply ih
      have h1 : (acc'.length : Int) ≤ (acc.length : Int) + 1 := by exact_mod_cast hlen
      omega

theorem resolveLoop_ledger_irrel (cs : List String) (lg lg' : String) (bs : Int) :
    ∀ (rows : List Row) (acc : List String),
      resolveLoop cs lg false bs rows acc = resolveLoop cs lg' false bs rows acc := by
  intro rows
  induction rows with
  | nil => intro acc; rfl
  | cons r rest ih =>
    intro acc
    simp only [resolveLoop, Bool.false_and]
    split_ifs <;> first | rfl | exact ih _

/-- Every location the loop emits (with `exclude_failed` on) was already
in the accumulator or comes from a row whose subject is not in the
failed ledger. -/
theorem resolveLoop_sources (cs : List String) (lg : String) (bs : Int) :
    ∀ (rows : List Row) (acc : List String) (l : String),
      l ∈ resolveLoop cs lg true bs rows acc →
      l ∈ acc ∨ ∃ r ∈ rows, r.location = l ∧ file_in_failed lg r.Subject = false := by
  intro rows
  induction rows with
  | nil => intro acc l h; exact Or.inl h
  | cons r rest ih =>
    intro acc l h
    simp only [resolveLoop, Bool.true_and] at h
    set acc' := if cs.contains r.Subject then acc
      else if file_in_failed lg r.Subject then acc
      else acc ++ [r.location] with hacc'
    have hsrc : ∀ x ∈ acc', x ∈ acc ∨
        (x = r.location ∧ file_in_failed lg r.Subject = false) := by
      intro x hx
      rw [hacc'] at hx
      split_ifs at hx with h1 h2
      · exact Or.inl hx
      · exact Or.inl hx
      · rcases List.mem_append.mp hx with h3 | h3
        · exact Or.inl h3
        · exact Or.inr ⟨List.mem_singleton.mp h3, Bool.not_eq_true _ ▸ eq_false_of_ne_true h2⟩
    have lift : (l ∈ acc ∨ (l = r.location ∧ file_in_failed lg r.Subject = false)) →
        l ∈ acc ∨ ∃ r' ∈ r :: rest, r'.location = l ∧ file_in_failed lg r'.Subject = false := by
      rintro (h0 | ⟨h0, h0f⟩)
      · exact Or.inl h0
      · exact Or.inr ⟨r, List.mem_cons_self _ _, h0.symm, h0f⟩
    split at h
    · exact lift (hsrc l h)
    · rcases ih acc' l h with h0 | ⟨r', hr', hrl, hrf⟩
      · exact lift (hsrc l h0)
      · exact Or.inr ⟨r', List.mem_cons_of_mem _ hr', hrl, hrf⟩

/-! ## Claims about the batch selector -/

/-- C1: for every manifest, batch size and `cores_per_inst > 0`, the
returned location list is the filtered loop output truncated on the right
to the largest multiple of `cores_per_inst` not exceeding its length, so
its length is an exact multiple of `cores_per_inst`. -/
theorem resolve_inputs_multiple_of_cores (m : List Row) (bs : Int)
    (cs : List String) (c : Int) (ae ef : Bool) (lg : String)
    (locs fns : List String) (hc : 0 < c)
    (h : resolve_inputs m bs cs c ae ef lg = Except.ok (locs, fns)) :
    locs = (resolveLoop (if ae then [] else cs) lg ef bs m []).take
        ((resolveLoop (if ae then [] else cs) lg ef bs m []).length -
          (resolveLoop (if ae then [] else cs) lg ef bs m []).length % c.toNat)
    ∧ locs.length % c.toNat = 0 := by
  simp only [resolve_inputs] at h
  rw [if_neg hc.ne'] at h
  set pre := resolveLoop (if ae then [] else cs) lg ef bs m [] with hpre
  simp only [Except.ok.injEq, Prod.mk.injEq] at h
  obtain ⟨h1, _⟩ := h
  have hmodle : pre.length % c.toNat ≤ pre.length := Nat.mod_le _ _
  have hslice : pysliceTo pre ((pre.length : Int) - pymod (pre.length : Int) c)
      = pre.take (pre.length - pre.length % c.toNat) := by
    have hc2 : c = ((c.toNat : Nat) : Int) := (Int.toNat_of_nonneg hc.le).symm
    rw [hc2, pymod_coe, ← Nat.cast_sub hmodle]
    unfold pysliceTo
    rw [if_neg (not_lt.mpr (Int.natCast_nonneg _)), Int.toNat_ofNat, Int.toNat_ofNat]
  rw [hslice] at h1
  subst h1
  refine ⟨rfl, ?_⟩
  rw [List.length_take, min_eq_left (Nat.sub_le _ _)]
  have hd := Nat.div_add_mod pre.length c.toNat
  have heq : pre.length - pre.length % c.toNat = c.toNat * (pre.length / c.toNat) := by
    omega
  rw [heq]
  exact Nat.mul_mod_right _ _

/-- The three-row manifest of the spec's example 8. -/
def exampleManifest : List Row :=
  [⟨"s3://b/crams/ABC-RS1.cram", "ABC-RS1"⟩,
   ⟨"s3://b/crams/DEF-RS2.cram", "DEF-RS2"⟩,
   ⟨"s3://b/crams/GHI-RS3.cram", "GHI-RS3"⟩]

theorem resolve_inputs_multiple_of_cores_witness :
    (0 : Int) < 2
    ∧ resolve_inputs exampleManifest 3 [] 2 false false ""
        = Except.ok (["s3://b/crams/ABC-RS1.cram", "s3://b/crams/DEF-RS2.cram"],
            ["ABC-RS1.cram", "DEF-RS2.cram"])
    ∧ (["s3://b/crams/ABC-RS1.cram", "s3://b/crams/DEF-RS2.cram"]
        = (resolveLoop [] "" false 3 exampleManifest []).take
            ((resolveLoop [] "" false 3 exampleManifest []).length -
              (resolveLoop [] "" false 3 exampleManifest []).length % (2 : Int).toNat)
      ∧ (["s3://b/crams/ABC-RS1.cram", "s3://b/crams/DEF-RS2.cram"] :
          List String).length % (2 : Int).toNat = 0) :=
  ⟨by decide, rfl,
   resolve_inputs_multiple_of_cores exampleManifest 3 [] 2 false false "" _ _
     (by decide) rfl⟩

/-- C2 (counterexample): with `batch_size = 0` the loop's early-exit test
`len(locations) == batch_size` is checked only after a row has been
appended, so a one-row manifest yields one location — more than
`batch_size`. -/
theorem resolve_inputs_batch_size_zero_cex :
    resolve_inputs [⟨"l1", "S1"⟩] 0 [] 1 false false "" = Except.ok (["l1"], ["l1"])
    ∧ ¬ (((["l1"] : List String).length : Int) ≤ 0) :=
  ⟨rfl, by decide⟩

/-- C2 (amended): for every manifest and every `batch_size ≥ 1`, the
number of locations returned is at most `batch_size` (the accumulated
list grows one location at a time and the loop stops at equality; for
`batch_size ≤ 0` the equality test never fires once a row is kept). -/
theorem resolve_inputs_le_batch_size (m : List Row) (bs : Int)
    (cs : List String) (c : Int) (ae ef : Bool) (lg : String)
    (locs fns : List String) (hbs : 1 ≤ bs)
    (h : resolve_inputs m bs cs c ae ef lg = Except.ok (locs, fns)) :
    (locs.length : Int) ≤ bs := by
  simp only [resolve_inputs] at h
  by_cases hc : c = 0
  · rw [if_pos hc] at h; exact (Except.noConfusion h)
  · rw [if_neg hc] at h
    simp only [Except.ok.injEq, Prod.mk.injEq] at h
    obtain ⟨h1, _⟩ := h
    have hpre : ((resolveLoop (if ae then [] else cs) lg ef bs m []).length : Int) ≤ bs :=
      resolveLoop_length_le _ _ _ _ m [] (by simpa using hbs)
    have hle : locs.length ≤ (resolveLoop (if ae then [] else cs) lg ef bs m []).length := by
      rw [← h1]; exact pysliceTo_length_le _ _
    calc (locs.length : Int) ≤ _ := Nat.cast_le.mpr hle
      _ ≤ bs := hpre

theorem resolve_inputs_le_batch_size_witness :
    (1 : Int) ≤ 1
    ∧ resolve_inputs [⟨"l1", "S1"⟩] 1 [] 1 false false "" = Except.ok (["l1"], ["l1"])
    ∧ ((["l1"] : List String).length : Int) ≤ 1 :=
  ⟨by decide, rfl,
   resolve_inputs_le_batch_size [⟨"l1", "S1"⟩] 1 [] 1 false false "" ["l1"] ["l1"]
     (by decide) rfl⟩

/-- C5: with `exclude_failed` true, every returned location comes from a
manifest row whose subject is not in the failed ledger (so a subject
recorded there never contributes a location); with `exclude_failed`
false the result does not depend on the ledger's content at all. -/
theorem resolve_inputs_excludes_failed (m : List Row) (bs : Int)
    (cs : List String) (c : Int) (ae : Bool) (lg lg' : String)
    (locs fns : List String)
    (h : resolve_inputs m bs cs c ae true lg = Except.ok (locs, fns)) :
    locs.all (fun l => m.any (fun r =>
        r.location == l && !(file_in_failed lg r.Subject))) = true
    ∧ resolve_inputs m bs cs c ae false lg = resolve_inputs m bs cs c ae false lg' := by
  constructor
  · simp only [resolve_inputs] at h
    by_cases hc : c = 0
    · rw [if_pos hc] at h; exact (Except.noConfusion h)
    · rw [if_neg hc] at h
      simp only [Except.ok.injEq, Prod.mk.injEq] at h
      obtain ⟨h1, _⟩ := h
      rw [List.all_eq_true]
      intro l hl
      have hl' : l ∈ resolveLoop (if ae then [] else cs) lg true bs m [] := by
        rw [← h1] at hl
        exact pysliceTo_subset _ _ l hl
      rcases resolveLoop_sources _ _ _ m [] l hl' with h0 | ⟨r, hr, hrl, hrf⟩
      · exact absurd h0 (List.not_mem_nil l)
      · rw [List.any_eq_true]
        refine ⟨r, hr, ?_⟩
        rw [Bool.and_eq_true, beq_iff_eq, Bool.not_eq_true', hrl, hrf]
        exact ⟨rfl, rfl⟩
  · simp only [resolve_inputs]
    rw [resolveLoop_ledger_irrel (if ae then [] else cs) lg lg' bs m []]

theorem resolve_inputs_excludes_failed_witness :
    resolve_inputs [⟨"loc1", "S1"⟩] 5 [] 1 false true "S9\n" = Except.ok (["loc1"], ["loc1"])
    ∧ (["loc1"] : List String).all (fun l => ([⟨"loc1", "S1"⟩] : List Row).any (fun r =>
        r.location == l && !(file_in_failed "S9\n" r.Subject))) = true
    ∧ resolve_inputs [⟨"loc1", "S1"⟩] 5 [] 1 false false "S9\n"
        = resolve_inputs [⟨"loc1", "S1"⟩] 5 [] 1 false false "S1\n" :=
  ⟨rfl,
   (resolve_inputs_excludes_failed [⟨"loc1", "S1"⟩] 5 [] 1 false "S9\n" "S1\n"
     ["loc1"] ["loc1"] rfl).1,
   (resolve_inputs_excludes_failed [⟨"loc1", "S1"⟩] 5 [] 1 false "S9\n" "S1\n"
     ["loc1"] ["loc1"] rfl).2⟩

/-- C7 (counterexample): a call with `cores_per_inst = -2` is not
rejected: it returns a result (the alignment slice bound exceeds the list
length, so nothing is even truncated). -/
theorem resolve_inputs_negative_cores_cex :
    resolve_inputs [⟨"s3://b/f1", "S1"⟩] 3 [] (-2) false false ""
      = Except.ok (["s3://b/f1"], ["f1"]) := rfl

/-- C7 (amended): only `cores_per_inst = 0` aborts the call, with a
division-by-zero error at the alignment step; a negative `cores_per_inst`
is accepted and the call returns a result. -/
theorem resolve_inputs_cores_rejection (m : List Row) (bs : Int)
    (cs : List String) (ae ef : Bool) (lg : String) :
    resolve_inputs m bs cs 0 ae ef lg
      = Except.error "ZeroDivisionError: integer division or modulo by zero"
    ∧ ∀ c : Int, c < 0 → (resolve_inputs m bs cs c ae ef lg).isOk = true := by
  constructor
  · simp [resolve_inputs]
  · intro c hc
    simp only [resolve_inputs]
    rw [if_neg (by omega : ¬ (c = 0))]
    rfl

theorem resolve_inputs_cores_rejection_witness :
    resolve_inputs [⟨"l1", "S1"⟩] 3 [] 0 false false ""
      = Except.error "ZeroDivisionError: integer division or modulo by zero"
    ∧ ((-2 : Int) < 0)
    ∧ (resolve_inputs [⟨"l1", "S1"⟩] 3 [] (-2) false false "").isOk = true :=
  ⟨(resolve_inputs_cores_rejection [⟨"l1", "S1"⟩] 3 [] false false "").1,
   by decide,
   (resolve_inputs_cores_rejection [⟨"l1", "S1"⟩] 3 [] false false "").2 (-2) (by decide)⟩

/-! ## Lemmas about the grouping engine -/

theorem chunkExact_join {α : Type} (k : Nat) (xs : List α) :
    (chunkExact k xs).flatten = xs := by
  suffices h : ∀ (n : Nat) (xs : List α), xs.length ≤ n →
      (chunkExact k xs).flatten = xs from h xs.length xs le_rfl
  intro n
  induction n using Nat.strong_induction_on with
  | _ n ih =>
    intro xs h
    cases xs with
    | nil => rfl
    | cons x rest =>
      cases n with
      | zero => simp at h
      | succ n' =>
        rw [chunkExact_cons, List.flatten_cons,
          ih n' (Nat.lt_succ_self n') _ (by
            simp only [List.length_cons] at h
            simp only [List.length_drop]
            omega),
          List.cons_append, List.take_append_drop]

theorem chunkExact_map {α β : Type} (k : Nat) (f : α → β) (xs : List α) :
    chunkExact k (xs.map f) = (chunkExact k xs).map (List.map f) := by
  suffices h : ∀ (n : Nat) (xs : List α), xs.length ≤ n →
      chunkExact k (xs.map f) = (chunkExact k xs).map (List.map f) from
    h xs.length xs le_rfl
  intro n
  induction n using Nat.strong_induction_on with
  | _ n ih =>
    intro xs h
    cases xs with
    | nil => rfl
    | cons x rest =>
      cases n with
      | zero => simp at h
      | succ n' =>
        rw [List.map_cons, chunkExact_cons, chunkExact_cons, List.map_cons]
        rw [← List.map_take, ← List.map_drop,
          ih n' (Nat.lt_succ_self n') _ (by
            simp only [List.length_cons] at h
            simp only [List.length_drop]
            omega)]
        simp [List.map_cons]

theorem prepend_path_map_length (xss : List (List String)) (p : String) :
    (prepend_path xss p).map List.length = xss.map List.length := by
  simp [prepend_path, List.map_map, Function.comp_def]

theorem basename_map_length (xss : List (List String)) :
    (basename xss).map List.length = xss.map List.length := by
  simp [basename, List.map_map, Function.comp_def]

theorem dropPre_pre (p s : String) : dropPre p (p ++ s) = s := by
  unfold dropPre
  rw [String.data_append, List.drop_left]

/-! ## Claims about the grouping engine -/

/-- C3: for every filename list and `items_per_list > 0`, grouping is
shape-preserving: the group sizes of `grouped_input_paths` sum to the
input length, `subjects` has identical outer and per-group inner lengths,
and when index paths are present their groups match group-for-group in
length. -/
theorem group_inputs_shape_preserving (filenames : List String) (k : Int)
    (ftype : String) (idx_ext : Option String) (g : GroupResult) (hk : 0 < k)
    (h : group_inputs filenames k ftype idx_ext = Except.ok g) :
    (g.grouped_input_paths.map List.length).sum = filenames.length
    ∧ g.subjects.map List.length = g.grouped_input_paths.map List.length
    ∧ (∀ ips, g.grouped_idx_paths = some ips →
        ips.map List.length = g.grouped_input_paths.map List.length) := by
  simp only [group_inputs] at h
  rw [if_neg hk.ne'] at h
  simp only [Except.ok.injEq] at h
  subst h
  simp only [pyChunks, if_neg (not_lt.mpr hk.le : ¬ k < 0)]
  refine ⟨?_, ?_, ?_⟩
  · rw [prepend_path_map_length, ← List.length_flatten, chunkExact_join]
  · rw [prepend_path_map_length, basename_map_length]
  · intro ips hips
    cases hb : pyTruthy idx_ext with
    | false =>
      simp only [hb, if_false, Bool.false_eq_true] at hips
      exact Option.noConfusion hips
    | true =>
      simp only [hb, if_true, Option.some.injEq, pyChunks,
        if_neg (not_lt.mpr hk.le : ¬ k < 0)] at hips
      subst hips
      rw [prepend_path_map_length, prepend_path_map_length, chunkExact_map]
      simp [List.map_map, Function.comp_def]

/-- The grouping result of the spec's example 9. -/
def exampleGroups : GroupResult :=
  ⟨[["a", "b"], ["c"]],
   [["crams/a.cram", "crams/b.cram"], ["crams/c.cram"]],
   some [["cramsidx/a.cram.crai", "cramsidx/b.cram.crai"], ["cramsidx/c.cram.crai"]]⟩

theorem group_inputs_shape_preserving_witness :
    (0 : Int) < 2
    ∧ group_inputs ["a.cram", "b.cram", "c.cram"] 2 "cram" (some "crai")
        = Except.ok exampleGroups
    ∧ (exampleGroups.grouped_input_paths.map List.length).sum
        = (["a.cram", "b.cram", "c.cram"] : List String).length
    ∧ exampleGroups.subjects.map List.length
        = exampleGroups.grouped_input_paths.map List.length
    ∧ [["cramsidx/a.cram.crai", "cramsidx/b.cram.crai"],
        ["cramsidx/c.cram.crai"]].map List.length
        = exampleGroups.grouped_input_paths.map List.length :=
  ⟨by decide, rfl,
   (group_inputs_shape_preserving ["a.cram", "b.cram", "c.cram"] 2 "cram"
     (some "crai") exampleGroups (by decide) rfl).1,
   (group_inputs_shape_preserving ["a.cram", "b.cram", "c.cram"] 2 "cram"
     (some "crai") exampleGroups (by decide) rfl).2.1,
   (group_inputs_shape_preserving ["a.cram", "b.cram", "c.cram"] 2 "cram"
     (some "crai") exampleGroups (by decide) rfl).2.2 _ rfl⟩

/-- C4: for every filename list and `items_per_list > 0`, stripping the
prepended `<filetype>s/` path from every element of `grouped_input_paths`
and flattening the groups in order reproduces the original filename list
exactly. -/
theorem group_inputs_roundtrip (filenames : List String) (k : Int)
    (ftype : String) (idx_ext : Option String) (g : GroupResult) (hk : 0 < k)
    (h : group_inputs filenames k ftype idx_ext = Except.ok g) :
    (g.grouped_input_paths.map
        (List.map (fun s => dropPre (ftype ++ "s/") s))).flatten = filenames := by
  simp only [group_inputs] at h
  rw [if_neg hk.ne'] at h
  simp only [Except.ok.injEq] at h
  subst h
  simp only [pyChunks, if_neg (not_lt.mpr hk.le : ¬ k < 0), prepend_path]
  have hid : ∀ (l : List String),
      (l.map (fun s => (ftype ++ "s/") ++ s)).map
        (fun s => dropPre (ftype ++ "s/") s) = l := by
    intro l
    rw [List.map_map]
    have : ((fun s => dropPre (ftype ++ "s/") s) ∘ fun s => (ftype ++ "s/") ++ s)
        = id := by
      funext x
      exact dropPre_pre (ftype ++ "s/") x
    rw [this, List.map_id]
  rw [List.map_map]
  have : ((List.map fun s => dropPre (ftype ++ "s/") s) ∘
      fun l => l.map fun s => (ftype ++ "s/") ++ s)
      = id := by
    funext l
    exact hid l
  rw [this, List.map_id, chunkExact_join]

theorem group_inputs_roundtrip_witness :
    (0 : Int) < 2
    ∧ group_inputs ["a.cram", "b.cram", "c.cram"] 2 "cram" (some "crai")
        = Except.ok exampleGroups
    ∧ (exampleGroups.grouped_input_paths.map
        (List.map (fun s => dropPre ("cram" ++ "s/") s))).flatten
        = ["a.cram", "b.cram", "c.cram"] :=
  ⟨by decide, rfl,
   group_inputs_roundtrip ["a.cram", "b.cram", "c.cram"] 2 "cram" (some "crai")
     exampleGroups (by decide) rfl⟩

/-- C10: for every nonempty filename list and negative `items_per_list`,
`group_inputs` silently returns empty grouped sequences and no error: the
chunking range produces no indices for a negative step, so every filename
is dropped. -/
theorem group_inputs_negative_items (filenames : List String) (k : Int)
    (ftype : String) (idx_ext : Option String)
    (_hne : filenames ≠ []) (hk : k < 0) :
    group_inputs filenames k ftype idx_ext
      = Except.ok ⟨[], [], if pyTruthy idx_ext then some [] else none⟩ := by
  simp only [group_inputs]
  rw [if_neg (by omega : ¬ k = 0)]
  simp only [pyChunks, if_pos hk, prepend_path, basename, List.map_nil]

theorem group_inputs_negative_items_witness :
    ((["a.cram"] : List String) ≠ [])
    ∧ ((-2 : Int) < 0)
    ∧ group_inputs ["a.cram"] (-2) "cram" (some "crai")
        = Except.ok ⟨[], [], some []⟩ :=
  ⟨by decide, by decide,
   group_inputs_negative_items ["a.cram"] (-2) "cram" (some "crai")
     (by decide) (by decide)⟩

/-! ## Claims about the run auditor -/

/-- C9 (counterexample): for the key `"a.postrun.json.postrun.json"`
(which ends in `.postrun.json`) with marker-free content, the code
collects `"a"` — the part before the *first* occurrence of
`.postrun.json` — and not the suffix-stripped key `"a.postrun.json"`. -/
theorem failedJobIds_strip_cex :
    pyEndsWith "a.postrun.json.postrun.json" ".postrun.json" = true
    ∧ pyInStr md5Marker "nomarker" = false
    ∧ suffixStripped "a.postrun.json.postrun.json" ".postrun.json" = "a.postrun.json"
    ∧ failedJobIds [("a.postrun.json.postrun.json", "nomarker")] = ["a"]
    ∧ "a.postrun.json" ∉ failedJobIds [("a.postrun.json.postrun.json", "nomarker")] :=
  ⟨rfl, rfl, rfl, rfl, by decide⟩

/-- C9 (amended): a fetched run is judged failed iff the literal substring
`"md5sum":"` is absent from its decoded content, and the failed set holds
exactly, for each such key ending in `.postrun.json`, the portion of the
key before the *first* occurrence of `.postrun.json` (which equals the
suffix-stripped key whenever that string occurs in the key only as its
suffix). -/
theorem failedJobIds_membership (listing : List (String × String)) (jid : String) :
    jid ∈ failedJobIds listing ↔
      ∃ kc ∈ listing, pyEndsWith kc.1 ".postrun.json" = true
        ∧ pyInStr md5Marker kc.2 = false
        ∧ jid = py_split_head kc.1 ".postrun.json" := by
  unfold failedJobIds
  rw [List.mem_dedup, List.mem_filterMap]
  constructor
  · rintro ⟨kc, hmem, hsome⟩
    by_cases h1 : pyEndsWith kc.1 ".postrun.json" = true
    · rw [if_pos h1] at hsome
      by_cases h2 : pyInStr md5Marker kc.2 = true
      · rw [if_pos h2] at hsome
        exact Option.noConfusion hsome
      · rw [if_neg h2] at hsome
        exact ⟨kc, hmem, h1, eq_false_of_ne_true h2, (Option.some.inj hsome).symm⟩
    · rw [if_neg h1] at hsome
      exact Option.noConfusion hsome
  · rintro ⟨kc, hmem, h1, h2, rfl⟩
    refine ⟨kc, hmem, ?_⟩
    rw [if_pos h1, if_neg (by simp [h2])]

/-! ## Lemmas about the failed-runs ledger update -/

theorem foldl_append_data (L : List String) (s : String) :
    (L.foldl (fun r t => r ++ t) s).data = s.data ++ (L.map String.data).flatten := by
  induction L generalizing s with
  | nil => simp
  | cons a L ih =>
    simp only [List.foldl_cons, ih, String.data_append, List.map_cons,
      List.flatten_cons, List.append_assoc]

theorem data_join (L : List String) :
    (String.join L).data = (L.map String.data).flatten := by
  unfold String.join
  rw [foldl_append_data]
  rfl

theorem linesKeep_newline_block (i : List Char) (hni : '\n' ∉ i) (t : List Char) :
    linesKeep (i ++ '\n' :: t) = (i ++ ['\n']) :: linesKeep t := by
  induction i with
  | nil => simp [linesKeep]
  | cons c i ih =>
    have hc : ¬ (c = '\n') := fun h => hni (by rw [h]; exact List.mem_cons_self _ _)
    have hni' : '\n' ∉ i := fun h => hni (List.mem_cons_of_mem _ h)
    simp only [List.cons_append, linesKeep, List.append_eq, if_neg hc, ih hni']

theorem linesKeep_flat (ls : List (List Char))
    (h : ∀ l ∈ ls, ∃ i, '\n' ∉ i ∧ l = i ++ ['\n']) :
    linesKeep ls.flatten = ls := by
  induction ls with
  | nil => rfl
  | cons l ls ih =>
    obtain ⟨i, hni, rfl⟩ := h _ (List.mem_cons_self _ _)
    rw [List.flatten_cons]
    have hassoc : (i ++ ['\n']) ++ ls.flatten = i ++ ('\n' :: ls.flatten) := by simp
    rw [hassoc, linesKeep_newline_block i hni,
      ih (fun l hl => h _ (List.mem_cons_of_mem _ hl))]

theorem str_empty_append (s : String) : "" ++ s = s := by
  cases s
  rfl

/-- The lines of a concatenation of newline-terminated, newline-free
blocks are exactly the blocks. -/
theorem pyLines_join_of_blocks (L : List String)
    (h : ∀ s ∈ L, ∃ i : String, '\n' ∉ i.data ∧ s = i ++ "\n") :
    pyLines (String.join L) = L := by
  unfold pyLines
  have hblocks : ∀ l ∈ L.map String.data, ∃ i, '\n' ∉ i ∧ l = i ++ ['\n'] := by
    intro l hl
    obtain ⟨s, hs, rfl⟩ := List.mem_map.mp hl
    obtain ⟨i, hni, rfl⟩ := h s hs
    exact ⟨i.data, hni, by rw [String.data_append]⟩
  rw [data_join, linesKeep_flat _ hblocks, List.map_map]
  have hid : (String.mk ∘ String.data) = id := by
    funext s
    rfl
  rw [hid, List.map_id]

/-- C8 (counterexample): the Run Auditor records the failed job id
`"j1"` in `failed_runs.txt`, but `file_in_failed` reads `failed.txt`,
which the audit left empty — so a subsequent membership check on the
recorded identifier returns false, not true. -/
theorem postrun_ledger_distinct_cex :
    processPostrunLedger [("j1.postrun.json", "nomarker")] ⟨"", ""⟩ = ⟨"", "j1\n"⟩
    ∧ file_in_failed
        (processPostrunLedger [("j1.postrun.json", "nomarker")] ⟨"", ""⟩).failed_txt
        "j1" = false :=
  ⟨rfl, rfl⟩

/-- C8 (amended): the Run Auditor appends the failed job identifiers to
`failed_runs.txt` — a file distinct from the `failed.txt` ledger that
`file_in_failed` reads — and leaves `failed.txt` unchanged, so the
membership check's result is unaffected by the audit; the recorded
identifier is instead findable in `failed_runs.txt` (here shown from an
empty initial file, for identifiers free of newlines and surrounding
whitespace). -/
theorem processPostrun_ledger_frame (listing : List (String × String))
    (st : LedgerState) (subject : String) :
    (processPostrunLedger listing st).failed_txt = st.failed_txt
    ∧ file_in_failed (processPostrunLedger listing st).failed_txt subject
        = file_in_failed st.failed_txt subject
    ∧ (st.failed_runs_txt = "" →
        (∀ i ∈ failedJobIds listing, '\n' ∉ i.data) →
        ∀ jid ∈ failedJobIds listing, pyStrip jid = jid →
          file_in_failed (processPostrunLedger listing st).failed_runs_txt jid
            = true) := by
  obtain ⟨ft, fr⟩ := st
  refine ⟨rfl, rfl, ?_⟩
  intro hempty hnl jid hjid hstrip
  simp only at hempty
  subst hempty
  simp only [processPostrunLedger, dedupLines, str_empty_append]
  set ids := failedJobIds listing with hids
  have hlines : pyLines (String.join (ids.map (fun i => i ++ "\n")))
      = ids.map (fun i => i ++ "\n") := by
    apply pyLines_join_of_blocks
    intro s hs
    obtain ⟨i, hi, rfl⟩ := List.mem_map.mp hs
    exact ⟨i, hnl i hi, rfl⟩
  rw [hlines]
  set D := (ids.map (fun i => i ++ "\n")).dedup with hD
  have hD_lines : pyLines (String.join D) = D := by
    apply pyLines_join_of_blocks
    intro s hs
    have hs' : s ∈ ids.map (fun i => i ++ "\n") := List.mem_dedup.mp (hD ▸ hs)
    obtain ⟨i, hi, rfl⟩ := List.mem_map.mp hs'
    exact ⟨i, hnl i hi, rfl⟩
  unfold file_in_failed
  rw [hD_lines, List.any_eq_true]
  refine ⟨jid ++ "\n", ?_, ?_⟩
  · rw [hD]
    exact List.mem_dedup.mpr (List.mem_map_of_mem _ hjid)
  · rw [pyStrip_append_newline, hstrip]
    exact beq_self_eq_true jid

theorem processPostrun_ledger_frame_witness :
    (processPostrunLedger [("j1.postrun.json", "nomarker")] ⟨"S0\n", ""⟩).failed_txt
      = "S0\n"
    ∧ file_in_failed
        (processPostrunLedger [("j1.postrun.json", "nomarker")] ⟨"S0\n", ""⟩).failed_txt
        "j1"
      = file_in_failed "S0\n" "j1"
    ∧ file_in_failed
        (processPostrunLedger [("j1.postrun.json", "nomarker")] ⟨"S0\n", ""⟩).failed_runs_txt
        "j1" = true :=
  ⟨(processPostrun_ledger_frame [("j1.postrun.json", "nomarker")] ⟨"S0\n", ""⟩ "j1").1,
   (processPostrun_ledger_frame [("j1.postrun.json", "nomarker")] ⟨"S0\n", ""⟩ "j1").2.1,
   (processPostrun_ledger_frame [("j1.postrun.json", "nomarker")] ⟨"S0\n", ""⟩ "j1").2.2
     rfl (by decide) "j1" (by decide) (by decide)⟩

end Tibanna
